import Mathlib

/-!
Verification of the digit-rewriting engine of the octagon-numbers repository
(`src/streamlit_app.py`).

The engine works on digit sequences (most-significant first).  We embed the
Python functions `normalize_octal_str`, `compact_once`, `to_counts_compact`,
`ultra_once`, `to_counts_ultra` and `to_counts_canonical` as pure Lean
functions on `List Nat`.  The in-place right-to-left sweep of `compact_once`
(resp. `ultra_once`) is modelled by a structurally recursive sweep that
processes the less-significant suffix first, exactly mirroring the Python
loop `for i in range(len(d) - 2, -1, -1)` (resp. `len(d) - 3`), which reads
the entries already updated by the iterations at larger `i`.  The Python
`while` loops that drive the sweeps to a fixpoint are modelled by
fuel-bounded iteration; the fuel `meas d + 1` is proved sufficient
(`compactLoop_fix`, `ultraLoop_fix`), so the embedded drivers compute the
same fixpoints the Python loops do.
-/

namespace OctRings

/-- `value(seq) = Σ seq[i] * 8^(L-1-i)`: the integer a digit sequence
(most-significant first) represents in base 8. -/
def value (d : List Nat) : Nat := d.foldl (fun a x => 8 * a + x) 0

/-- Sum of the digits, each capped at 8.  Used as (part of) the termination
measure of the rewrite loops. -/
def capSum (d : List Nat) : Nat := (d.map (fun x => min x 8)).sum

/-- Termination measure for the rewrite loops: every firing raises `capSum`
by at least 7 while keeping the length, and every leading-zero strip lowers
the length while keeping `capSum`. -/
def meas (d : List Nat) : Nat := 9 * d.length - capSum d

/-- One step of the compaction sweep at the most significant position of the
current suffix: given the head digit `x` and the already-swept remainder
(with its change flag), fire the rule `if d[i] >= 1 and d[i+1] == 0` of
`compact_once`. -/
def fireHead (x : Nat) (p : List Nat × Bool) : List Nat × Bool :=
  match p with
  | (0 :: t, c) => if 1 ≤ x then ((x - 1) :: 8 :: t, true) else (x :: 0 :: t, c)
  | (r, c) => (x :: r, c)

/-- The right-to-left pass of `compact_once` (the Python
`for i in range(len(d) - 2, -1, -1)` loop, which mutates `d` in place):
the suffix is swept first, then the pair at the current head is examined
against the updated suffix. -/
def compactSweep : List Nat → List Nat × Bool
  | x :: y :: t => fireHead x (compactSweep (y :: t))
  | l => (l, false)

/-- The leading-zero strip `while len(d) > 1 and d[0] == 0: d.pop(0)` shared
by `compact_once`, `ultra_once` and `normalize_octal_str`; the flag records
whether anything was removed. -/
def stripLeading : List Nat → List Nat × Bool
  | 0 :: y :: t => ((stripLeading (y :: t)).1, true)
  | l => (l, false)

/-- `compact_once` from the source: one right-to-left compaction pass
followed by the leading-zero strip; returns the new sequence and the
`changed` flag. -/
def compact_once (d : List Nat) : List Nat × Bool :=
  let s := compactSweep d
  let t := stripLeading s.1
  (t.1, s.2 || t.2)

/-- The loop `while compact_once(d): pass`, as fuel-bounded iteration.  With
fuel at least `meas d + 1` this reaches the fixpoint (`compactLoop_fix`). -/
def compactLoop : Nat → List Nat → List Nat
  | 0, d => d
  | n + 1, d =>
    let p := compact_once d
    if p.2 then compactLoop n p.1 else p.1

/-- `to_counts_compact` from the source (on the digit sequence of its string
argument): run `compact_once` to a fixpoint; `"0"` maps to `[0]`. -/
def to_counts_compact (d : List Nat) : List Nat :=
  if d = [0] then [0] else compactLoop (meas d + 1) d

/-- One step of the ultra sweep at the most significant position of the
current suffix: fire the rule `if d[i] >= 1 and d[i+1] == 8 and d[i+2] == 0`
of `ultra_once` (decrement the outer digit, set the doubly-inner digit
to 8, keep the middle digit). -/
def fireHead3 (x : Nat) (p : List Nat × Bool) : List Nat × Bool :=
  match p with
  | (y :: z :: t, c) =>
    if 1 ≤ x ∧ y = 8 ∧ z = 0 then ((x - 1) :: y :: 8 :: t, true) else (x :: y :: z :: t, c)
  | (r, c) => (x :: r, c)

/-- The right-to-left pass of `ultra_once` (the Python
`for i in range(len(d) - 3, -1, -1)` loop). -/
def ultraSweep : List Nat → List Nat × Bool
  | x :: y :: t => fireHead3 x (ultraSweep (y :: t))
  | l => (l, false)

/-- `ultra_once` from the source: one right-to-left ultra pass followed by
the leading-zero strip. -/
def ultra_once (d : List Nat) : List Nat × Bool :=
  let s := ultraSweep d
  let t := stripLeading s.1
  (t.1, s.2 || t.2)

/-- The driver loop of `to_counts_ultra`:
`while ultra_once(d): while compact_once(d): pass`, as fuel-bounded
iteration (the inner Compact loop restarts with its own sufficient fuel). -/
def ultraLoop : Nat → List Nat → List Nat
  | 0, d => d
  | n + 1, d =>
    let p := ultra_once d
    if p.2 then ultraLoop n (compactLoop (meas p.1 + 1) p.1) else p.1

/-- `to_counts_ultra` from the source: first compact to stability, then
ultra to stability (refreshing compact after each ultra change); `"0"` maps
to `[0]`. -/
def to_counts_ultra (d : List Nat) : List Nat :=
  if d = [0] then [0]
  else ultraLoop (meas (compactLoop (meas d + 1) d) + 1) (compactLoop (meas d + 1) d)

/-- `to_counts_canonical` from the source: the identity view (`"0"` maps to
`[0]`, which is already the digit sequence of `"0"`). -/
def to_counts_canonical (d : List Nat) : List Nat :=
  if d = [0] then [0] else d

/-- `int(c)` for a decimal digit character. -/
def digitVal (c : Char) : Nat := c.toNat - 48

/-- Base-8 expansion, least significant digit first, of the carry prepended
at the most-significant end of `normalize_octal_str` (the source prepends
`carry` and then re-examines it, splitting again while it is `>= 8`).
Structured with fuel; called as `expandCarry c c`, and fuel `c` always
suffices since `c / 8 < c` for `c > 0`. -/
def expandCarry : Nat → Nat → List Nat
  | 0, c => if c = 0 then [] else [c]
  | f + 1, c => if c = 0 then [] else c % 8 :: expandCarry f (c / 8)

/-- The carry-propagation loop of `normalize_octal_str` on the digit list
taken least-significant first: each position absorbs the incoming carry,
keeps its value mod 8 and sends the quotient leftward; a carry surviving
past the most significant digit is prepended as its own base-8 digits. -/
def propagate : Nat → List Nat → List Nat
  | c, [] => expandCarry c c
  | c, x :: t => (x + c) % 8 :: propagate ((x + c) / 8) t

/-- `normalize_octal_str` from the source, returning the digit sequence of
the normalized string: keep the decimal digit characters, carry-propagate
right to left, and strip superfluous leading zeros (empty filtered input
gives `[0]`). -/
def normalize_octal_str (s : String) : List Nat :=
  let ds := (s.data.filter Char.isDigit).map digitVal
  if ds = [] then [0]
  else (stripLeading ((propagate 0 ds.reverse).reverse)).1

/-- Is there an adjacent pair `(d[i] >= 1, d[i+1] == 0)`? -/
def hasPair : List Nat → Bool
  | x :: y :: t => (decide (1 ≤ x) && decide (y = 0)) || hasPair (y :: t)
  | _ => false

/-- Is there a triple `(d[i] >= 1, d[i+1] == 8, d[i+2] == 0)`? -/
def hasTriple : List Nat → Bool
  | x :: y :: z :: t => (decide (1 ≤ x) && decide (y = 8) && decide (z = 0)) || hasTriple (y :: z :: t)
  | _ => false

/-- Canonical digit sequence: nonempty, every digit in `[0,7]`, and no
leading zero unless the sequence is `[0]`. -/
def Canonical (d : List Nat) : Prop :=
  d ≠ [] ∧ (∀ x ∈ d, x ≤ 7) ∧ (d.head? = some 0 → d = [0])

instance (d : List Nat) : Decidable (Canonical d) := by
  unfold Canonical
  infer_instance

/-- Modelled from the spec: the Minimal transform (spec section 4.4) is not
implemented in `src/streamlit_app.py` (only Canonical, Compact and Ultra
are); this is its left-to-right single-firing scan, faithful to the spec
wording: scan most-significant to least-significant and fire the compaction
rule at the first eligible adjacent pair only, without retrying. -/
def minimalSweep : List Nat → List Nat
  | x :: y :: t => if 1 ≤ x ∧ y = 0 then (x - 1) :: 8 :: t else x :: minimalSweep (y :: t)
  | l => l

/-- Modelled from the spec: the single leading-zero strip of the Minimal
transform ("strips any resulting leading-zero digit once, not to a
fixpoint"). -/
def stripOnce : List Nat → List Nat
  | 0 :: y :: t => y :: t
  | l => l

/-- Modelled from the spec: the Minimal transform (spec section 4.4),
absent from `src/`: one leftmost firing of the compaction rule, then one
leading-zero strip. -/
def minimal (d : List Nat) : List Nat := stripOnce (minimalSweep d)

/-- The compaction rewrite applied at position `i` (decrement `s[i]`, set
`s[i+1]` to 8); used to state where `minimal` fires. -/
def fireAt (s : List Nat) (i : Nat) : List Nat :=
  s.take i ++ (s.getD i 0 - 1) :: 8 :: s.drop (i + 2)

/-! ### Value arithmetic -/

lemma foldl_mul_add (l : List Nat) (a : Nat) :
    l.foldl (fun b x => 8 * b + x) a = a * 8 ^ l.length + l.foldl (fun b x => 8 * b + x) 0 := by
  induction l generalizing a with
  | nil => simp
  | cons x t ih =>
    simp only [List.foldl_cons, List.length_cons]
    rw [ih (8 * a + x), ih (8 * 0 + x)]
    ring

lemma value_cons (x : Nat) (l : List Nat) :
    value (x :: l) = x * 8 ^ l.length + value l := by
  simp only [value, List.foldl_cons]
  rw [foldl_mul_add]
  ring_nf

lemma value_append (a b : List Nat) :
    value (a ++ b) = value a * 8 ^ b.length + value b := by
  simp only [value, List.foldl_append]
  rw [foldl_mul_add]

/-! ### Lemmas about the compaction sweep -/

lemma fireHead_length (x : Nat) (p : List Nat × Bool) :
    (fireHead x p).1.length = p.1.length + 1 := by
  obtain ⟨l, c⟩ := p
  cases l with
  | nil => rfl
  | cons h t =>
    cases h with
    | zero => simp only [fireHead]; split <;> simp
    | succ n => rfl

lemma compactSweep_length (d : List Nat) : (compactSweep d).1.length = d.length := by
  induction d with
  | nil => rfl
  | cons x rest ih =>
    cases rest with
    | nil => rfl
    | cons y t =>
      simp only [compactSweep, fireHead_length, ih, List.length_cons]

lemma compactSweep_value (d : List Nat) : value (compactSweep d).1 = value d := by
  induction d with
  | nil => rfl
  | cons x rest ih =>
    cases rest with
    | nil => rfl
    | cons y t =>
      have hlen := compactSweep_length (y :: t)
      simp only [compactSweep]
      rcases hp : compactSweep (y :: t) with ⟨l, c⟩
      rw [hp] at ih hlen
      dsimp only at ih hlen
      cases l with
      | nil => simp at hlen
      | cons h t2 =>
        simp only [List.length_cons, Nat.succ_inj] at hlen
        cases h with
        | zero =>
          have hv0 : value ((0 : Nat) :: t2) = value t2 := by simp [value_cons]
          simp only [fireHead]
          split
          · rename_i hx
            obtain ⟨x, rfl⟩ := Nat.exists_eq_add_of_le hx
            rw [hv0] at ih
            have hx1 : 1 + x - 1 = x := by omega
            rw [hx1, value_cons x (8 :: t2), value_cons (8 : Nat) t2,
              value_cons (1 + x) (y :: t), ← ih]
            simp only [List.length_cons, hlen]
            ring
          · rw [value_cons x (0 :: t2), value_cons x (y :: t), ← ih, hv0]
            simp only [List.length_cons, hlen]
        | succ n =>
          simp only [fireHead]
          rw [value_cons x ((n + 1) :: t2), value_cons x (y :: t), ← ih]
          simp only [List.length_cons, hlen]

lemma compactSweep_false (d : List Nat) (h : (compactSweep d).2 = false) :
    (compactSweep d).1 = d ∧ hasPair d = false := by
  induction d with
  | nil => exact ⟨rfl, rfl⟩
  | cons x rest ih =>
    cases rest with
    | nil => exact ⟨rfl, rfl⟩
    | cons y t =>
      have hlen := compactSweep_length (y :: t)
      revert h
      simp only [compactSweep]
      rcases hp : compactSweep (y :: t) with ⟨l, c⟩
      rw [hp] at ih hlen
      dsimp only at ih hlen
      intro h
      cases l with
      | nil => simp at hlen
      | cons hd t2 =>
        cases hd with
        | zero =>
          revert h
          simp only [fireHead]
          split
          · intro h; simp at h
          · rename_i hx
            intro h
            obtain ⟨hl, hnp⟩ := ih h
            injection hl with hy ht
            subst ht
            have hx0 : x = 0 := by omega
            subst hx0
            rw [← hy] at hnp ⊢
            exact ⟨rfl, by simp [hasPair, hnp]⟩
        | succ n =>
          simp only [fireHead] at h ⊢
          obtain ⟨hl, hnp⟩ := ih h
          injection hl with hy ht
          subst ht
          rw [← hy] at hnp ⊢
          exact ⟨rfl, by simp [hasPair, hnp]⟩

lemma capSum_cons (x : Nat) (l : List Nat) : capSum (x :: l) = min x 8 + capSum l := by
  simp [capSum]

lemma capSum_le (d : List Nat) : capSum d ≤ 8 * d.length := by
  induction d with
  | nil => simp [capSum]
  | cons x t ih => simp only [capSum_cons, List.length_cons]; omega

lemma compactSweep_capSum (d : List Nat) :
    capSum d ≤ capSum (compactSweep d).1 ∧
      ((compactSweep d).2 = true → capSum d + 7 ≤ capSum (compactSweep d).1) := by
  induction d with
  | nil => simp [compactSweep]
  | cons x rest ih =>
    cases rest with
    | nil => simp [compactSweep]
    | cons y t =>
      have hlen := compactSweep_length (y :: t)
      simp only [compactSweep]
      rcases hp : compactSweep (y :: t) with ⟨l, c⟩
      rw [hp] at ih hlen
      dsimp only at ih hlen
      obtain ⟨ih1, ih2⟩ := ih
      cases l with
      | nil => simp at hlen
      | cons hd t2 =>
        cases hd with
        | zero =>
          simp only [fireHead]
          split
          · rename_i hx
            simp only [capSum_cons] at ih1 ih2 ⊢
            exact ⟨by omega, fun _ => by omega⟩
          · simp only [capSum_cons] at ih1 ih2 ⊢
            exact ⟨by omega, fun hc => by have := ih2 hc; omega⟩
        | succ n =>
          simp only [fireHead]
          simp only [capSum_cons] at ih1 ih2 ⊢
          exact ⟨by omega, fun hc => by have := ih2 hc; omega⟩

lemma compactSweep_sum (d : List Nat) :
    d.sum ≤ (compactSweep d).1.sum ∧
      ((compactSweep d).2 = true → d.sum + 7 ≤ (compactSweep d).1.sum) := by
  induction d with
  | nil => simp [compactSweep]
  | cons x rest ih =>
    cases rest with
    | nil => simp [compactSweep]
    | cons y t =>
      have hlen := compactSweep_length (y :: t)
      simp only [compactSweep]
      rcases hp : compactSweep (y :: t) with ⟨l, c⟩
      rw [hp] at ih hlen
      dsimp only at ih hlen
      obtain ⟨ih1, ih2⟩ := ih
      cases l with
      | nil => simp at hlen
      | cons hd t2 =>
        cases hd with
        | zero =>
          simp only [fireHead]
          split
          · rename_i hx
            simp only [List.sum_cons] at ih1 ih2 ⊢
            exact ⟨by omega, fun _ => by omega⟩
          · simp only [List.sum_cons] at ih1 ih2 ⊢
            exact ⟨by omega, fun hc => by have := ih2 hc; omega⟩
        | succ n =>
          simp only [fireHead]
          simp only [List.sum_cons] at ih1 ih2 ⊢
          exact ⟨by omega, fun hc => by have := ih2 hc; omega⟩

lemma compactSweep_mem (d : List Nat) (hd : ∀ v ∈ d, v ≤ 8) :
    ∀ v ∈ (compactSweep d).1, v ≤ 8 := by
  induction d with
  | nil => exact hd
  | cons x rest ih =>
    cases rest with
    | nil => simpa [compactSweep] using hd
    | cons y t =>
      have hx : x ≤ 8 := hd x (by simp)
      have hrest : ∀ v ∈ (y :: t), v ≤ 8 := fun v hv => hd v (by simp [hv])
      have ih2 := ih hrest
      simp only [compactSweep]
      rcases hp : compactSweep (y :: t) with ⟨l, c⟩
      rw [hp] at ih2
      dsimp only at ih2
      cases l with
      | nil => intro v hv; simp [fireHead] at hv; rcases hv with rfl; exact hx
      | cons h2 t2 =>
        cases h2 with
        | zero =>
          simp only [fireHead]
          split
          · intro v hv
            simp only [List.mem_cons] at hv
            rcases hv with rfl | rfl | hv
            · omega
            · omega
            · exact ih2 v (by simp [hv])
          · intro v hv
            simp only [List.mem_cons] at hv
            rcases hv with rfl | hv
            · exact hx
            · exact ih2 v (by simpa using hv)
        | succ n =>
          simp only [fireHead]
          intro v hv
          simp only [List.mem_cons] at hv
          rcases hv with rfl | hv
          · exact hx
          · exact ih2 v (by simpa using hv)

/-! ### Lemmas about the leading-zero strip -/

lemma stripLeading_value (l : List Nat) : value (stripLeading l).1 = value l := by
  induction l with
  | nil => rfl
  | cons x rest ih =>
    cases x with
    | zero =>
      cases rest with
      | nil => rfl
      | cons y t => simpa [stripLeading, value_cons] using ih
    | succ n => rfl

lemma stripLeading_capSum (l : List Nat) : capSum (stripLeading l).1 = capSum l := by
  induction l with
  | nil => rfl
  | cons x rest ih =>
    cases x with
    | zero =>
      cases rest with
      | nil => rfl
      | cons y t => simpa [stripLeading, capSum_cons] using ih
    | succ n => rfl

lemma stripLeading_sum (l : List Nat) : (stripLeading l).1.sum = l.sum := by
  induction l with
  | nil => rfl
  | cons x rest ih =>
    cases x with
    | zero =>
      cases rest with
      | nil => rfl
      | cons y t => simpa [stripLeading] using ih
    | succ n => rfl

lemma stripLeading_length (l : List Nat) : (stripLeading l).1.length ≤ l.length := by
  induction l with
  | nil => simp [stripLeading]
  | cons x rest ih =>
    cases x with
    | zero =>
      cases rest with
      | nil => simp [stripLeading]
      | cons y t =>
        simp only [stripLeading, List.length_cons]
        simp only [List.length_cons] at ih
        omega
    | succ n => simp [stripLeading]

lemma stripLeading_true_length (l : List Nat) (h : (stripLeading l).2 = true) :
    (stripLeading l).1.length < l.length := by
  cases l with
  | nil => simp [stripLeading] at h
  | cons x rest =>
    cases x with
    | zero =>
      cases rest with
      | nil => simp [stripLeading] at h
      | cons y t =>
        have h2 := stripLeading_length (y :: t)
        simp only [List.length_cons] at h2
        simp only [stripLeading, List.length_cons]
        omega
    | succ n => simp [stripLeading] at h

lemma stripLeading_false (l : List Nat) (h : (stripLeading l).2 = false) :
    (stripLeading l).1 = l := by
  cases l with
  | nil => rfl
  | cons x rest =>
    cases x with
    | zero =>
      cases rest with
      | nil => rfl
      | cons y t => simp [stripLeading] at h
    | succ n => rfl

lemma stripLeading_mem (l : List Nat) (hd : ∀ v ∈ l, v ≤ 8) :
    ∀ v ∈ (stripLeading l).1, v ≤ 8 := by
  induction l with
  | nil => exact hd
  | cons x rest ih =>
    cases x with
    | zero =>
      cases rest with
      | nil => exact hd
      | cons y t =>
        simp only [stripLeading]
        exact ih fun v hv => hd v (by simp [List.mem_cons] at hv ⊢; tauto)
    | succ n => exact hd

lemma stripLeading_no_leading_zero (l : List Nat) :
    ∀ y t, (stripLeading l).1 = 0 :: y :: t → False := by
  induction l with
  | nil => intro y t h; simp [stripLeading] at h
  | cons x rest ih =>
    cases x with
    | zero =>
      cases rest with
      | nil => intro y t h; simp [stripLeading] at h
      | cons z t2 => simpa [stripLeading] using ih
    | succ n => intro y t h; simp [stripLeading] at h

lemma stripLeading_of_shape (l : List Nat) (h : ∀ y t, l ≠ 0 :: y :: t) :
    stripLeading l = (l, false) := by
  cases l with
  | nil => rfl
  | cons x rest =>
    cases x with
    | zero =>
      cases rest with
      | nil => rfl
      | cons y t => exact absurd rfl (h y t)
    | succ n => rfl

/-! ### Lemmas about `compact_once` and its fixpoint loop -/

lemma compact_once_value (d : List Nat) : value (compact_once d).1 = value d := by
  simp only [compact_once]
  rw [stripLeading_value, compactSweep_value]

lemma compact_once_length (d : List Nat) : (compact_once d).1.length ≤ d.length := by
  simp only [compact_once]
  calc (stripLeading (compactSweep d).1).1.length
      ≤ (compactSweep d).1.length := stripLeading_length _
    _ = d.length := compactSweep_length d

lemma compact_once_mem (d : List Nat) (hd : ∀ v ∈ d, v ≤ 8) :
    ∀ v ∈ (compact_once d).1, v ≤ 8 := by
  simp only [compact_once]
  exact stripLeading_mem _ (compactSweep_mem d hd)

lemma compact_once_meas (d : List Nat) (h : (compact_once d).2 = true) :
    meas (compact_once d).1 < meas d := by
  have c1 := (compactSweep_capSum d).1
  have c2 := (compactSweep_capSum d).2
  have lS := compactSweep_length d
  have capT := stripLeading_capSum (compactSweep d).1
  have lt1 := stripLeading_length (compactSweep d).1
  have lt2 := stripLeading_true_length (compactSweep d).1
  have b1 := capSum_le d
  have b2 := capSum_le (stripLeading (compactSweep d).1).1
  simp only [compact_once, Bool.or_eq_true] at h
  simp only [compact_once, meas]
  rcases h with h | h
  · have := c2 h
    omega
  · have := lt2 h
    omega

lemma compact_once_false (d : List Nat) (h : (compact_once d).2 = false) :
    (compact_once d).1 = d ∧ hasPair d = false ∧ stripLeading d = (d, false) := by
  simp only [compact_once, Bool.or_eq_false_iff] at h
  obtain ⟨h1, h2⟩ := h
  obtain ⟨hs, hnp⟩ := compactSweep_false d h1
  rw [hs] at h2
  have ht := stripLeading_false d h2
  simp only [compact_once, hs]
  refine ⟨ht, hnp, ?_⟩
  exact Prod.ext ht h2

lemma compactLoop_value (n : Nat) : ∀ d, value (compactLoop n d) = value d := by
  induction n with
  | zero => intro d; rfl
  | succ n ih =>
    intro d
    simp only [compactLoop]
    rcases h2 : (compact_once d).2 with _ | _
    · simpa [h2] using compact_once_value d
    · simp only [h2, if_true]
      rw [ih, compact_once_value]

lemma compactLoop_length (n : Nat) : ∀ d, (compactLoop n d).length ≤ d.length := by
  induction n with
  | zero => intro d; exact le_refl _
  | succ n ih =>
    intro d
    simp only [compactLoop]
    rcases h2 : (compact_once d).2 with _ | _
    · simpa [h2] using compact_once_length d
    · simp only [h2, if_true]
      exact le_trans (ih _) (compact_once_length d)

lemma compactLoop_meas (n : Nat) : ∀ d, meas (compactLoop n d) ≤ meas d := by
  induction n with
  | zero => intro d; exact le_refl _
  | succ n ih =>
    intro d
    simp only [compactLoop]
    rcases h2 : (compact_once d).2 with _ | _
    · simp only [h2, Bool.false_eq_true, if_false]
      rw [(compact_once_false d h2).1]
    · simp only [h2, if_true]
      exact le_trans (ih _) (le_of_lt (compact_once_meas d h2))

lemma compactLoop_mem (n : Nat) : ∀ d, (∀ v ∈ d, v ≤ 8) → ∀ v ∈ compactLoop n d, v ≤ 8 := by
  induction n with
  | zero => intro d hd; exact hd
  | succ n ih =>
    intro d hd
    simp only [compactLoop]
    rcases h2 : (compact_once d).2 with _ | _
    · simpa [h2] using compact_once_mem d hd
    · simp only [h2, if_true]
      exact ih _ (compact_once_mem d hd)

lemma compactLoop_fix (n : Nat) : ∀ d, meas d < n → (compact_once (compactLoop n d)).2 = false := by
  induction n with
  | zero => intro d h; omega
  | succ n ih =>
    intro d h
    simp only [compactLoop]
    rcases h2 : (compact_once d).2 with _ | _
    · simp only [h2, Bool.false_eq_true, if_false]
      rw [(compact_once_false d h2).1]
      exact h2
    · simp only [h2, if_true]
      exact ih _ (by have := compact_once_meas d h2; omega)

lemma compactLoop_of_false (d : List Nat) (h : (compact_once d).2 = false) :
    ∀ n, compactLoop n d = d := by
  intro n
  cases n with
  | zero => rfl
  | succ n =>
    simp only [compactLoop, h, if_false]
    exact (compact_once_false d h).1

lemma compactLoop_agree (n : Nat) :
    ∀ m d, meas d < n → n ≤ m → compactLoop m d = compactLoop n d := by
  induction n with
  | zero => intro m d h; omega
  | succ n ih =>
    intro m d h hm
    obtain ⟨k, rfl⟩ := Nat.exists_eq_add_of_le hm
    simp only [compactLoop]
    have hsum : n + 1 + k = (n + k) + 1 := by omega
    rw [hsum]
    simp only [compactLoop]
    rcases h2 : (compact_once d).2 with _ | _
    · simp [h2]
    · simp only [h2, if_true]
      have hlt : meas (compact_once d).1 < n := by
        have := compact_once_meas d h2; omega
      rw [ih (n + k) _ hlt (by omega), ih n _ hlt (le_refl n)]

lemma to_counts_compact_fix (d : List Nat) :
    (compact_once (to_counts_compact d)).2 = false := by
  simp only [to_counts_compact]
  split
  · decide
  · exact compactLoop_fix _ d (by omega)

lemma to_counts_compact_nopair (d : List Nat) : hasPair (to_counts_compact d) = false :=
  (compact_once_false _ (to_counts_compact_fix d)).2.1

lemma to_counts_compact_value (d : List Nat) : value (to_counts_compact d) = value d := by
  simp only [to_counts_compact]
  split
  · rename_i h; rw [h]
  · exact compactLoop_value _ d

/-! ### Lemmas about `ultra_once` and its driver loop -/

lemma fireHead3_length (x : Nat) (p : List Nat × Bool) :
    (fireHead3 x p).1.length = p.1.length + 1 := by
  obtain ⟨l, c⟩ := p
  cases l with
  | nil => rfl
  | cons a rest =>
    cases rest with
    | nil => rfl
    | cons b t =>
      simp only [fireHead3]
      split <;> simp

lemma ultraSweep_length (d : List Nat) : (ultraSweep d).1.length = d.length := by
  induction d with
  | nil => rfl
  | cons x rest ih =>
    cases rest with
    | nil => rfl
    | cons y t =>
      simp only [ultraSweep, fireHead3_length, ih, List.length_cons]

lemma ultraSweep_false (d : List Nat) (h : (ultraSweep d).2 = false) :
    (ultraSweep d).1 = d := by
  induction d with
  | nil => rfl
  | cons x rest ih =>
    cases rest with
    | nil => rfl
    | cons y t =>
      revert h
      simp only [ultraSweep]
      rcases hp : ultraSweep (y :: t) with ⟨l, c⟩
      rw [hp] at ih
      dsimp only at ih
      intro h
      cases l with
      | nil =>
        simp only [fireHead3] at h ⊢
        rw [ih h]
      | cons a rest2 =>
        cases rest2 with
        | nil =>
          simp only [fireHead3] at h ⊢
          rw [ih h]
        | cons b t2 =>
          revert h
          simp only [fireHead3]
          split
          · intro h; simp at h
          · intro h
            rw [ih h]

lemma ultraSweep_capSum (d : List Nat) :
    capSum d ≤ capSum (ultraSweep d).1 ∧
      ((ultraSweep d).2 = true → capSum d + 7 ≤ capSum (ultraSweep d).1) := by
  induction d with
  | nil => simp [ultraSweep]
  | cons x rest ih =>
    cases rest with
    | nil => simp [ultraSweep]
    | cons y t =>
      have hlen := ultraSweep_length (y :: t)
      simp only [ultraSweep]
      rcases hp : ultraSweep (y :: t) with ⟨l, c⟩
      rw [hp] at ih hlen
      dsimp only at ih hlen
      obtain ⟨ih1, ih2⟩ := ih
      cases l with
      | nil => simp at hlen
      | cons a rest2 =>
        cases rest2 with
        | nil =>
          simp only [fireHead3]
          simp only [capSum_cons] at ih1 ih2 ⊢
          exact ⟨by omega, fun hc => by have := ih2 hc; omega⟩
        | cons b t2 =>
          simp only [fireHead3]
          split
          · rename_i hcond
            obtain ⟨hx, hy, hz⟩ := hcond
            subst hy; subst hz
            simp only [capSum_cons] at ih1 ih2 ⊢
            exact ⟨by omega, fun _ => by omega⟩
          · simp only [capSum_cons] at ih1 ih2 ⊢
            exact ⟨by omega, fun hc => by have := ih2 hc; omega⟩

lemma ultraSweep_sum (d : List Nat) :
    d.sum ≤ (ultraSweep d).1.sum ∧
      ((ultraSweep d).2 = true → d.sum + 7 ≤ (ultraSweep d).1.sum) := by
  induction d with
  | nil => simp [ultraSweep]
  | cons x rest ih =>
    cases rest with
    | nil => simp [ultraSweep]
    | cons y t =>
      have hlen := ultraSweep_length (y :: t)
      simp only [ultraSweep]
      rcases hp : ultraSweep (y :: t) with ⟨l, c⟩
      rw [hp] at ih hlen
      dsimp only at ih hlen
      obtain ⟨ih1, ih2⟩ := ih
      cases l with
      | nil => simp at hlen
      | cons a rest2 =>
        cases rest2 with
        | nil =>
          simp only [fireHead3]
          simp only [List.sum_cons] at ih1 ih2 ⊢
          exact ⟨by omega, fun hc => by have := ih2 hc; omega⟩
        | cons b t2 =>
          simp only [fireHead3]
          split
          · rename_i hcond
            obtain ⟨hx, hy, hz⟩ := hcond
            subst hy; subst hz
            simp only [List.sum_cons] at ih1 ih2 ⊢
            exact ⟨by omega, fun _ => by omega⟩
          · simp only [List.sum_cons] at ih1 ih2 ⊢
            exact ⟨by omega, fun hc => by have := ih2 hc; omega⟩

lemma hasPair_cons_false (a b : Nat) (t : List Nat) (h : hasPair (a :: b :: t) = false) :
    ¬(1 ≤ a ∧ b = 0) ∧ hasPair (b :: t) = false := by
  simp only [hasPair, Bool.or_eq_false_iff, Bool.and_eq_false_iff,
    decide_eq_false_iff_not] at h
  obtain ⟨h1, h2⟩ := h
  exact ⟨by tauto, h2⟩

lemma ultraSweep_nopair (d : List Nat) (h : hasPair d = false) :
    ultraSweep d = (d, false) := by
  induction d with
  | nil => rfl
  | cons x rest ih =>
    cases rest with
    | nil => rfl
    | cons y t =>
      obtain ⟨hhead, htail⟩ := hasPair_cons_false x y t h
      simp only [ultraSweep, ih htail]
      cases t with
      | nil => rfl
      | cons z t2 =>
        obtain ⟨hhead2, _⟩ := hasPair_cons_false y z t2 htail
        simp only [fireHead3]
        rw [if_neg]
        rintro ⟨hx, hy, hz⟩
        exact hhead2 ⟨by omega, hz⟩

lemma hasTriple_false_of_nopair (d : List Nat) (h : hasPair d = false) :
    hasTriple d = false := by
  induction d with
  | nil => rfl
  | cons x rest ih =>
    cases rest with
    | nil => rfl
    | cons y t =>
      obtain ⟨hhead, htail⟩ := hasPair_cons_false x y t h
      cases t with
      | nil => rfl
      | cons z t2 =>
        obtain ⟨hhead2, _⟩ := hasPair_cons_false y z t2 htail
        have ihz := ih htail
        simp only [hasTriple, Bool.or_eq_false_iff, Bool.and_eq_false_iff,
          decide_eq_false_iff_not]
        constructor
        · by_cases hy : y = 8
          · subst hy
            by_cases hz : z = 0
            · exact absurd ⟨by omega, hz⟩ hhead2
            · tauto
          · tauto
        · exact ihz

lemma ultra_once_false (d : List Nat) (h : (ultra_once d).2 = false) :
    (ultra_once d).1 = d := by
  simp only [ultra_once, Bool.or_eq_false_iff] at h
  obtain ⟨h1, h2⟩ := h
  have hs := ultraSweep_false d h1
  rw [hs] at h2
  have ht := stripLeading_false d h2
  simp only [ultra_once, hs]
  exact ht

lemma ultra_once_meas (d : List Nat) (h : (ultra_once d).2 = true) :
    meas (ultra_once d).1 < meas d := by
  have c1 := (ultraSweep_capSum d).1
  have c2 := (ultraSweep_capSum d).2
  have lS := ultraSweep_length d
  have capT := stripLeading_capSum (ultraSweep d).1
  have lt1 := stripLeading_length (ultraSweep d).1
  have lt2 := stripLeading_true_length (ultraSweep d).1
  have b1 := capSum_le d
  have b2 := capSum_le (stripLeading (ultraSweep d).1).1
  simp only [ultra_once, Bool.or_eq_true] at h
  simp only [ultra_once, meas]
  rcases h with h | h
  · have := c2 h
    omega
  · have := lt2 h
    omega

lemma ultra_once_fixpoint (e : List Nat) (h : (compact_once e).2 = false) :
    ultra_once e = (e, false) := by
  obtain ⟨_, hnp, hstrip⟩ := compact_once_false e h
  have hs := ultraSweep_nopair e hnp
  simp only [ultra_once, hs]
  rw [hstrip]
  rfl

lemma ultraLoop_of_false (d : List Nat) (h : (ultra_once d).2 = false) :
    ∀ n, ultraLoop n d = d := by
  intro n
  cases n with
  | zero => rfl
  | succ n =>
    simp only [ultraLoop, h, Bool.false_eq_true, if_false]
    exact ultra_once_false d h

lemma ultraLoop_fix (n : Nat) : ∀ d, meas d < n → (ultra_once (ultraLoop n d)).2 = false := by
  induction n with
  | zero => intro d h; omega
  | succ n ih =>
    intro d h
    simp only [ultraLoop]
    rcases h2 : (ultra_once d).2 with _ | _
    · simp only [h2, Bool.false_eq_true, if_false]
      rw [ultra_once_false d h2]
      exact h2
    · simp only [h2, if_true]
      refine ih _ ?_
      have hm1 := ultra_once_meas d h2
      have hm2 := compactLoop_meas (meas (ultra_once d).1 + 1) (ultra_once d).1
      omega

lemma ultraLoop_agree (n : Nat) :
    ∀ m d, meas d < n → n ≤ m → ultraLoop m d = ultraLoop n d := by
  induction n with
  | zero => intro m d h; omega
  | succ n ih =>
    intro m d h hm
    obtain ⟨k, rfl⟩ := Nat.exists_eq_add_of_le hm
    have hsum : n + 1 + k = (n + k) + 1 := by omega
    rw [hsum]
    simp only [ultraLoop]
    rcases h2 : (ultra_once d).2 with _ | _
    · simp [h2]
    · simp only [h2, if_true]
      have hlt : meas (compactLoop (meas (ultra_once d).1 + 1) (ultra_once d).1) < n := by
        have hm1 := ultra_once_meas d h2
        have hm2 := compactLoop_meas (meas (ultra_once d).1 + 1) (ultra_once d).1
        omega
      rw [ih (n + k) _ hlt (by omega), ih n _ hlt (le_refl n)]

lemma to_counts_ultra_eq_compact (d : List Nat) :
    to_counts_ultra d = to_counts_compact d := by
  simp only [to_counts_ultra, to_counts_compact]
  split
  · rfl
  · have hfix := compactLoop_fix (meas d + 1) d (by omega)
    have hu := ultra_once_fixpoint _ hfix
    have hu2 : (ultra_once (compactLoop (meas d + 1) d)).2 = false := by rw [hu]
    exact ultraLoop_of_false _ hu2 _

/-! ### Lemmas about the normalizer -/

/-- `value` read off a least-significant-first digit list. -/
def valueR (l : List Nat) : Nat := l.foldr (fun x a => 8 * a + x) 0

lemma valueR_cons (x : Nat) (l : List Nat) : valueR (x :: l) = 8 * valueR l + x := rfl

lemma value_reverse (l : List Nat) : value l.reverse = valueR l := by
  simp only [value, valueR, List.foldl_reverse]

lemma valueR_expandCarry (f : Nat) : ∀ c, c ≤ f → valueR (expandCarry f c) = c := by
  induction f with
  | zero =>
    intro c h
    have : c = 0 := by omega
    subst this
    rfl
  | succ f ih =>
    intro c h
    by_cases hc : c = 0
    · subst hc; rfl
    · have hdiv : c / 8 < c := Nat.div_lt_self (by omega) (by norm_num)
      have hmod := Nat.div_add_mod c 8
      simp only [expandCarry, hc, if_false, valueR_cons]
      rw [ih (c / 8) (by omega)]
      omega

lemma valueR_propagate (l : List Nat) : ∀ c, valueR (propagate c l) = c + valueR l := by
  induction l with
  | nil =>
    intro c
    simp only [propagate, valueR]
    rw [show List.foldr (fun x a => 8 * a + x) 0 (expandCarry c c) = valueR (expandCarry c c) from rfl,
      valueR_expandCarry c c (le_refl c)]
    simp
  | cons x t ih =>
    intro c
    simp only [propagate, valueR_cons]
    rw [ih ((x + c) / 8)]
    have hmod := Nat.div_add_mod (x + c) 8
    omega

lemma expandCarry_lt (f : Nat) : ∀ c, c ≤ f → ∀ v ∈ expandCarry f c, v < 8 := by
  induction f with
  | zero =>
    intro c h
    have : c = 0 := by omega
    subst this
    intro v hv
    simp [expandCarry] at hv
  | succ f ih =>
    intro c h
    by_cases hc : c = 0
    · subst hc; intro v hv; simp [expandCarry] at hv
    · have hdiv : c / 8 < c := Nat.div_lt_self (by omega) (by norm_num)
      simp only [expandCarry, hc, if_false]
      intro v hv
      simp only [List.mem_cons] at hv
      rcases hv with rfl | hv
      · exact Nat.mod_lt _ (by norm_num)
      · exact ih (c / 8) (by omega) v hv

lemma propagate_lt (l : List Nat) : ∀ c, ∀ v ∈ propagate c l, v < 8 := by
  induction l with
  | nil => intro c; exact expandCarry_lt c c (le_refl c)
  | cons x t ih =>
    intro c v hv
    simp only [propagate, List.mem_cons] at hv
    rcases hv with rfl | hv
    · exact Nat.mod_lt _ (by norm_num)
    · exact ih _ v hv

lemma propagate_cons_ne_nil (c x : Nat) (t : List Nat) : propagate c (x :: t) ≠ [] := by
  simp [propagate]

lemma stripLeading_ne_nil (l : List Nat) (h : l ≠ []) : (stripLeading l).1 ≠ [] := by
  induction l with
  | nil => exact absurd rfl h
  | cons x rest ih =>
    cases x with
    | zero =>
      cases rest with
      | nil => simp [stripLeading]
      | cons y t =>
        simp only [stripLeading]
        exact ih (by simp)
    | succ n => simp [stripLeading]

lemma stripLeading_subset (l : List Nat) : ∀ v ∈ (stripLeading l).1, v ∈ l := by
  induction l with
  | nil => intro v hv; exact hv
  | cons x rest ih =>
    cases x with
    | zero =>
      cases rest with
      | nil => intro v hv; exact hv
      | cons y t =>
        simp only [stripLeading]
        intro v hv
        exact List.mem_cons_of_mem _ (ih v hv)
    | succ n => intro v hv; exact hv

lemma stripLeading_singleton (v : Nat) : stripLeading [v] = ([v], false) := by
  cases v <;> rfl

/-- The digit sequence `normalize_octal_str` works on: the decimal digit
characters of the input, as numbers, most significant first. -/
def filteredDigits (s : String) : List Nat :=
  (s.data.filter Char.isDigit).map digitVal

lemma normalize_value (s : String) :
    value (normalize_octal_str s) = value (filteredDigits s) := by
  simp only [normalize_octal_str, filteredDigits]
  split
  · rename_i h
    rw [h]
    rfl
  · rw [stripLeading_value, value_reverse, valueR_propagate]
    simp only [Nat.zero_add]
    rw [← value_reverse, List.reverse_reverse]

lemma normalize_digits_le (s : String) : ∀ v ∈ normalize_octal_str s, v ≤ 7 := by
  simp only [normalize_octal_str]
  split
  · intro v hv; simp at hv; omega
  · intro v hv
    have hv2 := stripLeading_subset _ v hv
    have hv3 := List.mem_reverse.mp hv2
    have := propagate_lt _ 0 v hv3
    omega

lemma normalize_ne_nil (s : String) : normalize_octal_str s ≠ [] := by
  simp only [normalize_octal_str]
  split
  · simp
  · rename_i h
    rcases hds : (s.data.filter Char.isDigit).map digitVal with _ | ⟨x, t⟩
    · exact absurd hds h
    · apply stripLeading_ne_nil
      intro habs
      have : (propagate 0 (x :: t).reverse) = [] := by
        have := congrArg List.reverse habs
        simpa using this
      rcases hrev : (x :: t).reverse with _ | ⟨a, b⟩
      · have := congrArg List.length hrev
        simp at this
      · rw [hrev] at this
        exact propagate_cons_ne_nil 0 a b this

lemma normalize_head (s : String) :
    (normalize_octal_str s).head? = some 0 → normalize_octal_str s = [0] := by
  simp only [normalize_octal_str]
  split
  · intro; rfl
  · intro hh
    rcases hr : (stripLeading ((propagate 0 (((s.data.filter Char.isDigit)).map digitVal).reverse).reverse)).1 with _ | ⟨a, t⟩
    · rw [hr] at hh; simp at hh
    · rw [hr] at hh
      simp only [List.head?_cons, Option.some_inj] at hh
      subst hh
      cases t with
      | nil => rfl
      | cons b t2 => exact absurd hr (by intro habs; exact stripLeading_no_leading_zero _ b t2 habs)

lemma normalize_canonical (s : String) : Canonical (normalize_octal_str s) :=
  ⟨normalize_ne_nil s, normalize_digits_le s, normalize_head s⟩

/-! ### Indexed characterizations of the pair/triple predicates -/

lemma hasPair_false_getD (l : List Nat) (h : hasPair l = false) :
    ∀ i, i + 1 < l.length → ¬(1 ≤ l.getD i 0 ∧ l.getD (i + 1) 0 = 0) := by
  induction l with
  | nil => intro i hi; simp at hi
  | cons x rest ih =>
    cases rest with
    | nil => intro i hi; simp at hi
    | cons y t =>
      obtain ⟨hh, ht⟩ := hasPair_cons_false x y t h
      intro i hi
      cases i with
      | zero => simpa using hh
      | succ i =>
        simp only [List.getD_cons_succ]
        refine ih ht i ?_
        simp only [List.length_cons] at hi ⊢
        omega

lemma hasTriple_cons_false (a b c : Nat) (t : List Nat)
    (h : hasTriple (a :: b :: c :: t) = false) :
    ¬(1 ≤ a ∧ b = 8 ∧ c = 0) ∧ hasTriple (b :: c :: t) = false := by
  simp only [hasTriple, Bool.or_eq_false_iff, Bool.and_eq_false_iff,
    decide_eq_false_iff_not] at h
  obtain ⟨h1, h2⟩ := h
  exact ⟨by tauto, h2⟩

lemma hasTriple_false_getD (l : List Nat) (h : hasTriple l = false) :
    ∀ i, i + 2 < l.length →
      ¬(1 ≤ l.getD i 0 ∧ l.getD (i + 1) 0 = 8 ∧ l.getD (i + 2) 0 = 0) := by
  induction l with
  | nil => intro i hi; simp at hi
  | cons x rest ih =>
    cases rest with
    | nil => intro i hi; simp at hi
    | cons y t =>
      cases t with
      | nil =>
        intro i hi
        simp only [List.length_cons, List.length_nil] at hi
        omega
      | cons z t2 =>
        obtain ⟨hh, ht⟩ := hasTriple_cons_false x y z t2 h
        intro i hi
        cases i with
        | zero => simpa using hh
        | succ i =>
          simp only [List.getD_cons_succ]
          refine ih ht i ?_
          simp only [List.length_cons] at hi ⊢
          omega

/-! ### Lemmas about the (spec-modelled) Minimal transform -/

lemma minimalSweep_nopair (s : List Nat) (h : hasPair s = false) : minimalSweep s = s := by
  induction s with
  | nil => rfl
  | cons x rest ih =>
    cases rest with
    | nil => rfl
    | cons y t =>
      obtain ⟨hh, ht⟩ := hasPair_cons_false x y t h
      simp only [minimalSweep, if_neg hh]
      rw [ih ht]

lemma stripOnce_of_canonical (s : List Nat) (h : Canonical s) : stripOnce s = s := by
  obtain ⟨hne, _, hhead⟩ := h
  cases s with
  | nil => exact absurd rfl hne
  | cons x t =>
    cases x with
    | zero =>
      have h0 := hhead (by simp)
      injection h0 with h1 h2
      subst h2
      rfl
    | succ n => rfl

lemma minimalSweep_fire (i : Nat) :
    ∀ s : List Nat, i + 1 < s.length → 1 ≤ s.getD i 0 → s.getD (i + 1) 0 = 0 →
      (∀ j, j < i → ¬(1 ≤ s.getD j 0 ∧ s.getD (j + 1) 0 = 0)) →
      minimalSweep s = s.take i ++ (s.getD i 0 - 1) :: 8 :: s.drop (i + 2) := by
  induction i with
  | zero =>
    intro s hlen h1 h2 _
    cases s with
    | nil => simp at hlen
    | cons x rest =>
      cases rest with
      | nil => simp at hlen
      | cons y t =>
        simp only [List.getD_cons_zero, List.getD_cons_succ] at h1 h2
        simp only [minimalSweep, if_pos (And.intro h1 h2)]
        simp [h2, List.getD_cons_zero]
  | succ i ih =>
    intro s hlen h1 h2 hmin
    cases s with
    | nil => simp at hlen
    | cons x rest =>
      cases rest with
      | nil => simp at hlen
      | cons y t =>
        have hhead : ¬(1 ≤ x ∧ y = 0) := by
          have := hmin 0 (by omega)
          simpa using this
        simp only [minimalSweep, if_neg hhead]
        have hrec := ih (y :: t)
          (by simp only [List.length_cons] at hlen ⊢; omega)
          (by simpa using h1)
          (by simpa using h2)
          (by
            intro j hj
            have := hmin (j + 1) (by omega)
            simpa using this)
        rw [hrec]
        simp only [List.getD_cons_succ, List.take_succ_cons, List.drop_succ_cons,
          List.cons_append]

/-! ### Small helpers for the claim statements -/

lemma to_counts_canonical_value (d : List Nat) :
    value (to_counts_canonical d) = value d := by
  simp only [to_counts_canonical]
  split
  · rename_i h; rw [h]
  · rfl

lemma normalize_single (s : String) (c : Char) (hs : s.data = [c]) (hc : c.isDigit = true)
    (h7 : digitVal c ≤ 7) : normalize_octal_str s = [digitVal c] := by
  have h8 : digitVal c < 8 := by omega
  simp only [normalize_octal_str, hs, List.filter_cons, hc, if_true, List.filter_nil,
    List.map_cons, List.map_nil]
  rw [if_neg (by simp)]
  simp only [List.reverse_singleton, propagate, Nat.add_zero,
    Nat.mod_eq_of_lt h8, Nat.div_eq_of_lt h8]
  have : expandCarry 0 0 = [] := rfl
  rw [this]
  simp only [List.reverse_singleton]
  rw [stripLeading_singleton]

lemma sum_le_eight_mul (d : List Nat) (h : ∀ v ∈ d, v ≤ 8) : d.sum ≤ 8 * d.length := by
  induction d with
  | nil => simp
  | cons x t ih =>
    have hx : x ≤ 8 := h x (by simp)
    have ht := ih fun v hv => h v (by simp [hv])
    simp only [List.sum_cons, List.length_cons]
    omega

/-! ### The claims -/

/-- C1: for every canonical digit sequence `s`, the three implemented
policies preserve the represented integer:
`value (canonical s) = value (compact s) = value (ultra s) = value s`. -/
theorem C1_value_preservation (s : List Nat) (_h : Canonical s) :
    value (to_counts_canonical s) = value s ∧
    value (to_counts_compact s) = value s ∧
    value (to_counts_ultra s) = value s := by
  refine ⟨to_counts_canonical_value s, to_counts_compact_value s, ?_⟩
  rw [to_counts_ultra_eq_compact]
  exact to_counts_compact_value s

/-- C1 witness: the three policies preserve the value 512 of the canonical
sequence `[1,0,0,0]`. -/
theorem C1_witness :
    Canonical [1, 0, 0, 0] ∧
      (value (to_counts_canonical [1, 0, 0, 0]) = value [1, 0, 0, 0] ∧
       value (to_counts_compact [1, 0, 0, 0]) = value [1, 0, 0, 0] ∧
       value (to_counts_ultra [1, 0, 0, 0]) = value [1, 0, 0, 0]) :=
  ⟨by decide, C1_value_preservation [1, 0, 0, 0] (by decide)⟩

/-- C2: for every canonical digit sequence `s`, Ultra's output equals
Compact's: the Compact fixpoint has no eligible Ultra triple (a triple's
`(8, 0)` middle/inner pair would itself be compact-eligible), so
`ultra_once` never fires. -/
theorem C2_ultra_refines_compact (s : List Nat) (_h : Canonical s) :
    to_counts_ultra s = to_counts_compact s ∧
    hasTriple (to_counts_compact s) = false ∧
    (ultra_once (to_counts_compact s)).2 = false := by
  refine ⟨to_counts_ultra_eq_compact s,
    hasTriple_false_of_nopair _ (to_counts_compact_nopair s), ?_⟩
  rw [ultra_once_fixpoint _ (to_counts_compact_fix s)]

/-- C2 witness: on the canonical sequence `[2,0]`, Ultra's output equals
Compact's and no Ultra triple survives. -/
theorem C2_witness :
    Canonical [2, 0] ∧
      (to_counts_ultra [2, 0] = to_counts_compact [2, 0] ∧
       hasTriple (to_counts_compact [2, 0]) = false ∧
       (ultra_once (to_counts_compact [2, 0])).2 = false) :=
  ⟨by decide, C2_ultra_refines_compact [2, 0] (by decide)⟩

/-- C3 counterexample: the single Ultra rewrite step does NOT leave `value`
unchanged.  On `[1,8,0]` (value 128), the ultra pass fires its one eligible
triple and produces `[0,8,8]`, whose value is 72. -/
theorem C3_counterexample :
    value [1, 8, 0] = 128 ∧ ultraSweep [1, 8, 0] = ([0, 8, 8], true) ∧
    value [0, 8, 8] = 72 ∧ ¬ value (ultraSweep [1, 8, 0]).1 = value [1, 8, 0] := by
  decide

/-- C3 amended: the single Ultra rewrite step at an eligible triple
(`d[i] >= 1`, `d[i+1] == 8`, `d[i+2] == 0`; decrement `d[i]`, set `d[i+2]`
to 8, keep `d[i+1]`) does not preserve `value`; it decreases it by exactly
`7 * 8^(p+1)`, where `p` is the place of the inner digit. -/
theorem C3_amended_value_change (a b : List Nat) (x : Nat) (hx : 1 ≤ x) :
    value (a ++ x :: 8 :: 0 :: b) =
      value (a ++ (x - 1) :: 8 :: 8 :: b) + 7 * 8 ^ (b.length + 1) := by
  obtain ⟨x, rfl⟩ := Nat.exists_eq_add_of_le hx
  have hx1 : 1 + x - 1 = x := by omega
  rw [hx1, value_append, value_append]
  simp only [value_cons, List.length_cons]
  ring

/-- C3 witness: the amended claim at the eligible triple `[1,8,0]`:
`128 = 72 + 7 * 8`. -/
theorem C3_witness :
    (1 : Nat) ≤ 1 ∧ value [1, 8, 0] = value [0, 8, 8] + 7 * 8 ^ 1 :=
  ⟨le_refl 1, by
    have h := C3_amended_value_change [] [] 1 (le_refl 1)
    simpa using h⟩

/-- C4 counterexample: on the canonical sequence `[1,0,0,0]` the Ultra
driver performs NO additional triple-borrow beyond the Compact fixpoint:
the fixpoint is `[7,7,8]`, `ultra_once` reports no change there, and
Ultra's output equals Compact's. -/
theorem C4_counterexample :
    to_counts_compact [1, 0, 0, 0] = [7, 7, 8] ∧
    (ultra_once (to_counts_compact [1, 0, 0, 0])).2 = false ∧
    to_counts_ultra [1, 0, 0, 0] = to_counts_compact [1, 0, 0, 0] := by
  decide

/-- C4 amended: on `[1,0,0,0]` (value 512) the Compact fixpoint is
`[7,7,8]`, which contains no eligible Ultra triple, so the extra borrow
does not fire; Ultra returns `[7,7,8]` unchanged and its value is
still 512. -/
theorem C4_amended :
    to_counts_ultra [1, 0, 0, 0] = [7, 7, 8] ∧
    to_counts_compact [1, 0, 0, 0] = [7, 7, 8] ∧
    value [1, 0, 0, 0] = 512 ∧ value (to_counts_ultra [1, 0, 0, 0]) = 512 ∧
    (ultra_once [7, 7, 8]).2 = false ∧ hasTriple [7, 7, 8] = false := by
  decide

/-- C5: for every input string, `normalize_octal_str` keeps only decimal
digit characters and returns a sequence with every digit in `[0,7]`, no
superfluous leading zero, and unchanged positional base-8 value; the
spec's concrete cases `"8" -> [1,0]`, `"9" -> [1,1]`, `"" -> [0]`,
`"000" -> [0]`, `"17" -> [1,7]` hold, and single digits already in `[0,7]`
are returned unchanged. -/
theorem C5_normalizer (s : String) :
    (∀ v ∈ normalize_octal_str s, v ≤ 7) ∧
    normalize_octal_str s ≠ [] ∧
    ((normalize_octal_str s).head? = some 0 → normalize_octal_str s = [0]) ∧
    value (normalize_octal_str s) = value (filteredDigits s) ∧
    normalize_octal_str "8" = [1, 0] ∧
    normalize_octal_str "9" = [1, 1] ∧
    normalize_octal_str "" = [0] ∧
    normalize_octal_str "000" = [0] ∧
    normalize_octal_str "17" = [1, 7] ∧
    (∀ (s2 : String) (c : Char), s2.data = [c] → c.isDigit = true →
      digitVal c ≤ 7 → normalize_octal_str s2 = [digitVal c]) :=
  ⟨normalize_digits_le s, normalize_ne_nil s, normalize_head s, normalize_value s,
    by decide, by decide, by decide, by decide, by decide,
    fun s2 c hs hc h7 => normalize_single s2 c hs hc h7⟩

/-- C6: for every canonical digit sequence `s`, the Compact result has no
adjacent position `i` with `r[i] >= 1` and `r[i+1] == 0`. -/
theorem C6_compact_postcondition (s : List Nat) (_h : Canonical s) :
    ∀ i, i + 1 < (to_counts_compact s).length →
      ¬(1 ≤ (to_counts_compact s).getD i 0 ∧ (to_counts_compact s).getD (i + 1) 0 = 0) :=
  hasPair_false_getD _ (to_counts_compact_nopair s)

/-- C6 witness: the postcondition at the canonical input `[1,0,1]`. -/
theorem C6_witness :
    Canonical [1, 0, 1] ∧
      ∀ i, i + 1 < (to_counts_compact [1, 0, 1]).length →
        ¬(1 ≤ (to_counts_compact [1, 0, 1]).getD i 0 ∧
          (to_counts_compact [1, 0, 1]).getD (i + 1) 0 = 0) :=
  ⟨by decide, C6_compact_postcondition [1, 0, 1] (by decide)⟩

/-- C7: for every canonical digit sequence `s`, the Ultra result satisfies
Compact's postcondition (no adjacent `(>=1, 0)` pair) and contains no
eligible Ultra triple (`>=1, 8, 0`). -/
theorem C7_ultra_postcondition (s : List Nat) (_h : Canonical s) :
    (∀ i, i + 1 < (to_counts_ultra s).length →
      ¬(1 ≤ (to_counts_ultra s).getD i 0 ∧ (to_counts_ultra s).getD (i + 1) 0 = 0)) ∧
    (∀ i, i + 2 < (to_counts_ultra s).length →
      ¬(1 ≤ (to_counts_ultra s).getD i 0 ∧ (to_counts_ultra s).getD (i + 1) 0 = 8 ∧
        (to_counts_ultra s).getD (i + 2) 0 = 0)) := by
  have hnp : hasPair (to_counts_ultra s) = false := by
    rw [to_counts_ultra_eq_compact]
    exact to_counts_compact_nopair s
  exact ⟨hasPair_false_getD _ hnp,
    hasTriple_false_getD _ (hasTriple_false_of_nopair _ hnp)⟩

/-- C7 witness: the Ultra postconditions at the canonical input `[1,0,0]`. -/
theorem C7_witness :
    Canonical [1, 0, 0] ∧
      ((∀ i, i + 1 < (to_counts_ultra [1, 0, 0]).length →
        ¬(1 ≤ (to_counts_ultra [1, 0, 0]).getD i 0 ∧
          (to_counts_ultra [1, 0, 0]).getD (i + 1) 0 = 0)) ∧
       (∀ i, i + 2 < (to_counts_ultra [1, 0, 0]).length →
        ¬(1 ≤ (to_counts_ultra [1, 0, 0]).getD i 0 ∧
          (to_counts_ultra [1, 0, 0]).getD (i + 1) 0 = 8 ∧
          (to_counts_ultra [1, 0, 0]).getD (i + 2) 0 = 0))) :=
  ⟨by decide, C7_ultra_postcondition [1, 0, 0] (by decide)⟩

/-- C8: for every input digit sequence, the Compact fixpoint iteration and
the Ultra driver loop reach a pass that changes nothing and then stay
there; moreover a single pass never grows the sequence, each changing sweep
raises the digit sum by at least 7 (the sum being at most `8 * length` when
every digit is at most 8), and each leading-zero strip shortens the
sequence. -/
theorem C8_termination (d : List Nat) :
    (∃ n, (compact_once (compactLoop n d)).2 = false ∧
      ∀ m, n ≤ m → compactLoop m d = compactLoop n d) ∧
    (∃ n, (ultra_once (ultraLoop n d)).2 = false ∧
      ∀ m, n ≤ m → ultraLoop m d = ultraLoop n d) ∧
    (compact_once d).1.length ≤ d.length ∧
    ((compactSweep d).2 = true → d.sum + 7 ≤ (compactSweep d).1.sum) ∧
    ((ultraSweep d).2 = true → d.sum + 7 ≤ (ultraSweep d).1.sum) ∧
    ((∀ v ∈ d, v ≤ 8) → d.sum ≤ 8 * d.length) ∧
    ((stripLeading d).2 = true → (stripLeading d).1.length < d.length) :=
  ⟨⟨meas d + 1, compactLoop_fix _ d (by omega),
      fun m hm => compactLoop_agree _ m d (by omega) hm⟩,
    ⟨meas d + 1, ultraLoop_fix _ d (by omega),
      fun m hm => ultraLoop_agree _ m d (by omega) hm⟩,
    compact_once_length d, (compactSweep_sum d).2, (ultraSweep_sum d).2,
    sum_le_eight_mul d, stripLeading_true_length d⟩

/-- C9: the spec's concrete Compact scenarios: `[2,0] -> [1,8]` (value 16),
`[1,0,1] -> [8,1]` (value 65), `[1,0,0] -> [7,8]` (value 64). -/
theorem C9_compact_scenarios :
    to_counts_compact [2, 0] = [1, 8] ∧ value [2, 0] = 16 ∧ value [1, 8] = 16 ∧
    to_counts_compact [1, 0, 1] = [8, 1] ∧ value [1, 0, 1] = 65 ∧ value [8, 1] = 65 ∧
    to_counts_compact [1, 0, 0] = [7, 8] ∧ value [1, 0, 0] = 64 ∧ value [7, 8] = 64 := by
  decide

/-- C10: (spec-modelled Minimal transform) for every canonical digit
sequence `s`, `minimal` returns `s` unchanged when no adjacent `(>=1, 0)`
pair exists, and otherwise applies the compaction rewrite exactly once, at
the leftmost eligible pair, followed by a single leading-zero strip. -/
theorem C10_minimal_transform (s : List Nat) (h : Canonical s) :
    (hasPair s = false → minimal s = s) ∧
    (∀ i, i + 1 < s.length → 1 ≤ s.getD i 0 → s.getD (i + 1) 0 = 0 →
      (∀ j, j < i → ¬(1 ≤ s.getD j 0 ∧ s.getD (j + 1) 0 = 0)) →
      minimal s = stripOnce (fireAt s i)) := by
  constructor
  · intro hnp
    simp only [minimal, minimalSweep_nopair s hnp]
    exact stripOnce_of_canonical s h
  · intro i hlen h1 h2 hmin
    simp only [minimal, fireAt]
    rw [minimalSweep_fire i s hlen h1 h2 hmin]

/-- C10 witness: on `[1,0]` the single firing at the leftmost (and only)
eligible pair plus one strip gives `minimal [1,0] = [8]`. -/
theorem C10_witness :
    Canonical [1, 0] ∧
      ((hasPair [1, 0] = false → minimal [1, 0] = [1, 0]) ∧
       (∀ i, i + 1 < ([1, 0] : List Nat).length →
         1 ≤ ([1, 0] : List Nat).getD i 0 → ([1, 0] : List Nat).getD (i + 1) 0 = 0 →
         (∀ j, j < i → ¬(1 ≤ ([1, 0] : List Nat).getD j 0 ∧
           ([1, 0] : List Nat).getD (j + 1) 0 = 0)) →
         minimal [1, 0] = stripOnce (fireAt [1, 0] i))) :=
  ⟨by decide, C10_minimal_transform [1, 0] (by decide)⟩

end OctRings
